import Mathlib

/-
Verification of the batched MCTS core in `scalinglaws/mcts.py`.

The embedding is shallow and exact where the source is exact:
* float tensors are modelled by rationals (`ℚ`); the special IEEE values
  that the source manipulates explicitly (`np.nan` sentinels, the `np.inf`
  written by `regularized_policy`) are modelled by the type `F` below,
  whose comparisons follow IEEE semantics (`nan` compares false, `inf`
  is larger than every finite value);
* integer index tensors are modelled by `ℤ` with the sentinel `-1`;
  reads through an index tensor use `wrap`, which reproduces Python's
  negative-index wrap-around (`x[-1]` is the last element);
* the `log_pi` tensor, which the source initialises to `NaN` and uses as
  an "is this node expanded" flag, is modelled by `Option`: `none` is the
  NaN sentinel, `some` holds the (finite) logits written by the evaluator;
* the evaluator and the world `step` function are opaque function
  parameters, as the spec treats them;
* the categorical sampling inside `descend` is determinised by a `choose`
  parameter giving the sampled action at each node, since no claim here
  is about the distribution of the samples;
* `while True:` loops carry an explicit fuel; exhausting the fuel is an
  observable outcome, so termination claims can be stated.
-/

namespace BL

/-- Model of an IEEE float as seen by this code: a rational, `nan`, or a
signed infinity. -/
inductive F where
  | nan : F
  | inf : F
  | ninf : F
  | val : ℚ → F
deriving DecidableEq

namespace F

/-- IEEE negation. -/
def fNeg : F → F
  | nan => nan
  | inf => ninf
  | ninf => inf
  | val q => val (-q)

/-- IEEE addition (`inf + ninf = nan`). -/
def fAdd : F → F → F
  | nan, _ => nan
  | _, nan => nan
  | inf, ninf => nan
  | ninf, inf => nan
  | inf, _ => inf
  | _, inf => inf
  | ninf, _ => ninf
  | _, ninf => ninf
  | val a, val b => val (a + b)

/-- IEEE subtraction. -/
def fSub (a b : F) : F := fAdd a (fNeg b)

/-- IEEE multiplication (`inf * 0 = nan`). -/
def fMul : F → F → F
  | nan, _ => nan
  | _, nan => nan
  | inf, inf => inf
  | inf, ninf => ninf
  | ninf, inf => ninf
  | ninf, ninf => inf
  | inf, val b => if b = 0 then nan else if 0 < b then inf else ninf
  | val a, inf => if a = 0 then nan else if 0 < a then inf else ninf
  | ninf, val b => if b = 0 then nan else if 0 < b then ninf else inf
  | val a, ninf => if a = 0 then nan else if 0 < a then ninf else inf
  | val a, val b => val (a * b)

/-- IEEE absolute value. -/
def fAbs : F → F
  | nan => nan
  | inf => inf
  | ninf => inf
  | val a => val |a|

/-- IEEE `<`: any comparison against `nan` is false. -/
def fLt : F → F → Bool
  | nan, _ => false
  | _, nan => false
  | inf, _ => false
  | _, inf => true
  | ninf, ninf => false
  | ninf, val _ => true
  | val _, ninf => false
  | val a, val b => decide (a < b)

/-- IEEE `≤`: any comparison against `nan` is false. -/
def fLe : F → F → Bool
  | nan, _ => false
  | _, nan => false
  | inf, inf => true
  | inf, _ => false
  | _, inf => true
  | ninf, _ => true
  | val _, ninf => false
  | val a, val b => decide (a ≤ b)

/-- `torch.isnan`. -/
def fIsNaN : F → Bool
  | nan => true
  | _ => false

/-- `torch.sign x == -1`. -/
def fSignNeg : F → Bool
  | ninf => true
  | val a => decide (a < 0)
  | _ => false

/-- `torch.sign x == +1`. -/
def fSignPos : F → Bool
  | inf => true
  | val a => decide (0 < a)
  | _ => false

end F

open F

/- ------------------------------------------------------------------
`search` — the batched bisection of `scalinglaws/mcts.py`, lines 5-36.
The residual `f` is applied elementwise (as it is at the sole call site,
`regularized_policy`), so it is modelled as a family `Fin B → ℚ → F`.
------------------------------------------------------------------ -/

variable {B : ℕ}

/-- Line 10: `bad = (f(xl) < -tol) | (f(xr) > +tol)`, fixed at entry. -/
def badMask (f : Fin B → ℚ → F) (tol : ℚ) (xl xr : Fin B → ℚ) (b : Fin B) : Bool :=
  fLt (f b (xl b)) (F.val (-tol)) || fLt (F.val tol) (f b (xr b))

/-- Line 14: midpoint `xm = xl + (xr - xl)/2`. -/
def midpoint (xl xr : Fin B → ℚ) (b : Fin B) : ℚ := xl b + (xr b - xl b) / 2

/-- Line 17: an element has converged when `|f(xm)| < tol`. -/
def sConverged (f : Fin B → ℚ → F) (tol : ℚ) (xl xr : Fin B → ℚ) (b : Fin B) : Bool :=
  fLt (fAbs (f b (midpoint xl xr b))) (F.val tol)

/-- Line 18: bracket underflow `(xm == xl) | (xm == xr)`. -/
def sUnderflow (xl xr : Fin B → ℚ) (b : Fin B) : Bool :=
  decide (midpoint xl xr b = xl b) || decide (midpoint xl xr b = xr b)

/-- Line 19's per-element disjunct `converged | underflow | bad`. -/
def sResolved (f : Fin B → ℚ → F) (tol : ℚ) (bad : Fin B → Bool)
    (xl xr : Fin B → ℚ) (b : Fin B) : Bool :=
  sConverged f tol xl xr b || sUnderflow xl xr b || bad b

/-- Line 25's per-element NaN test `isnan(yl + ym + yr)`. -/
def sNanAt (f : Fin B → ℚ → F) (xl xr : Fin B → ℚ) (b : Fin B) : Bool :=
  fIsNaN (fAdd (fAdd (f b (xl b)) (f b (midpoint xl xr b))) (f b (xr b)))

/-- Lines 20-24: the value returned once every element is resolved.  The
fallback for `bad` elements assigns `xl` in BOTH masked branches (lines 21
and 23 of the source both read `xl[...]`). -/
def sReturn (f : Fin B → ℚ → F) (bad : Fin B → Bool)
    (xl xr : Fin B → ℚ) (b : Fin B) : ℚ :=
  if bad b && fLe (fAbs (f b (xl b))) (fAbs (f b (xr b))) then xl b
  else if bad b && fLt (fAbs (f b (xr b))) (fAbs (f b (xl b))) then xl b
  else midpoint xl xr b

/-- The `while True` loop of `search` (lines 12-36), with explicit fuel. -/
def searchAux (f : Fin B → ℚ → F) (tol : ℚ) (bad : Fin B → Bool) :
    ℕ → (Fin B → ℚ) → (Fin B → ℚ) → Except String (Fin B → ℚ)
  | 0, _, _ => .error "fuel exhausted"
  | fuel + 1, xl, xr =>
    if (List.finRange B).all (fun b => sResolved f tol bad xl xr b) then
      .ok (fun b => sReturn f bad xl xr b)
    else if (List.finRange B).any (fun b => sNanAt f xl xr b) then
      .error "Hit a nan"
    else if (List.finRange B).any (fun b => fLt (f b (xl b)) (F.val (-tol))) then
      .error "Left boundary has passed the root"
    else if (List.finRange B).any (fun b => fLt (F.val tol) (f b (xr b))) then
      .error "Right boundary has passed the root"
    else
      searchAux f tol bad fuel
        (fun b =>
          if fSignPos (f b (midpoint xl xr b)) && !bad b then midpoint xl xr b else xl b)
        (fun b =>
          if fSignNeg (f b (midpoint xl xr b)) && !bad b then midpoint xl xr b else xr b)

/-- `search(f, xl, xr, tol=1e-3)` of `scalinglaws/mcts.py`. -/
def search (f : Fin B → ℚ → F) (xl xr : Fin B → ℚ) (tol : ℚ) (fuel : ℕ) :
    Except String (Fin B → ℚ) :=
  searchAux f tol (badMask f tol xl xr) fuel xl xr

/-- Element `b` of a successful search, `none` when the search raised. -/
def searchAt (f : Fin B → ℚ → F) (xl xr : Fin B → ℚ) (tol : ℚ) (fuel : ℕ)
    (b : Fin B) : Option ℚ :=
  match search f xl xr tol fuel with
  | .ok g => some (g b)
  | .error _ => none

/- ------------------------------------------------------------------
Python index wrap-around: a torch/numpy read through an integer index
tensor interprets `-1` as the last element.
------------------------------------------------------------------ -/

/-- `wrap n i` is the element of `Fin n` that Python index `i` denotes
(`-1` wraps to `n - 1`). -/
def wrap (n : ℕ) [NeZero n] (i : ℤ) : Fin n :=
  ⟨(i % (n : ℤ)).toNat, by
    have hn : (0 : ℤ) < (n : ℤ) := by
      exact_mod_cast Nat.pos_of_ne_zero (NeZero.ne n)
    have h1 : 0 ≤ i % (n : ℤ) := Int.emod_nonneg i (by omega)
    have h2 : i % (n : ℤ) < (n : ℤ) := Int.emod_lt_of_pos i hn
    omega⟩

/-- Minimum of a list of rationals (`torch.Tensor.min()` on a non-empty
tensor; the `[]` case is arbitrary and never reached). -/
def listMin : List ℚ → ℚ
  | [] => 0
  | x :: xs => xs.foldl min x

/-- Maximum of a list of rationals (`torch.Tensor.max()`). -/
def listMax : List ℚ → ℚ
  | [] => 0
  | x :: xs => xs.foldl max x

/- ------------------------------------------------------------------
`MCTS.action_stats` (lines 90-104).  One call gathers, for each batch row
`b` (a pair `envs[b], nodes[b]` in the source), the children row
`children[envs[b], nodes[b]]` and looks the children up in the per-node
statistics of that environment.  `T` is `n_nodes`, `A` the action count,
`S` the seat count.
------------------------------------------------------------------ -/

/-- The data one `action_stats` call reads: row `b` of the gathered
`children` tensor, and environment `b`'s statistics tables. -/
structure ASInput (B A S T : ℕ) where
  children : Fin B → Fin A → ℤ
  statsN : Fin B → Fin T → ℕ
  statsW : Fin B → Fin T → Fin S → ℚ

variable {A S T : ℕ} [NeZero T]

/-- Line 92: `mask = (children != -1)`. -/
def asMask (inp : ASInput B A S T) (b : Fin B) (a : Fin A) : Bool :=
  decide (inp.children b a ≠ -1)

/-- Line 94: `n = stats.n.where(mask, 0)` after the gather (the gather
itself reads index `-1` as the last node, as Python does; the mask then
discards those reads). -/
def asN (inp : ASInput B A S T) (b : Fin B) (a : Fin A) : ℕ :=
  if asMask inp b a then inp.statsN b (wrap T (inp.children b a)) else 0

/-- Line 95: `w = stats.w.where(mask[..., None], 0)`. -/
def asW (inp : ASInput B A S T) (b : Fin B) (a : Fin A) (s : Fin S) : ℚ :=
  if asMask inp b a then inp.statsW b (wrap T (inp.children b a)) s else 0

/-- Lines 97-100: `q = w/n` followed by the first `q[n == 0] = 0`.  (In ℚ
the masked `0/0` is already `0`, which is exactly what the source's
explicit write makes of the float `nan`.) -/
def asQ0 (inp : ASInput B A S T) (b : Fin B) (a : Fin A) (s : Fin S) : ℚ :=
  if asN inp b a = 0 then 0 else asW inp b a s / (asN inp b a : ℚ)

/-- Every entry of the zeroed `q` tensor, over ALL rows, actions and
seats: the operand of the whole-tensor `q.min()` / `q.max()` on line 101. -/
def qEntries (inp : ASInput B A S T) : List ℚ :=
  (List.finRange B).flatMap fun b =>
    (List.finRange A).flatMap fun a =>
      (List.finRange S).map fun s => asQ0 inp b a s

/-- `q.min()` of line 101 — the minimum over the whole batched tensor. -/
def gmin (inp : ASInput B A S T) : ℚ := listMin (qEntries inp)

/-- `q.max()` of line 101. -/
def gmax (inp : ASInput B A S T) : ℚ := listMax (qEntries inp)

/-- Lines 101-102: `q = (q - q.min())/(q.max() - q.min() + 1e-6)` followed
by the second `q[n == 0] = 0`.  This is the `q` that `action_stats`
returns. -/
def asQ (inp : ASInput B A S T) (b : Fin B) (a : Fin A) (s : Fin S) : ℚ :=
  if asN inp b a = 0 then 0
  else (asQ0 inp b a s - gmin inp) / (gmax inp - gmin inp + 1 / 1000000)

/-- Modelled from the spec's words (for comparison with `asQ`): per-node
min-max rescaling, the minimum and maximum being taken over the single
node `b`'s own (zeroed) action values only. -/
def q_minmax_per_node (inp : ASInput B A S T) (b : Fin B) (a : Fin A) (s : Fin S) : ℚ :=
  if asN inp b a = 0 then 0
  else
    (asQ0 inp b a s -
        listMin ((List.finRange A).flatMap fun a1 =>
          (List.finRange S).map fun s1 => asQ0 inp b a1 s1)) /
      (listMax ((List.finRange A).flatMap fun a1 =>
          (List.finRange S).map fun s1 => asQ0 inp b a1 s1) -
        listMin ((List.finRange A).flatMap fun a1 =>
          (List.finRange S).map fun s1 => asQ0 inp b a1 s1) + 1 / 1000000)

/- ------------------------------------------------------------------
`regularized_policy` (lines 38-53), `MCTS.policy` (lines 106-122) and
`MCTS.root` (lines 197-208), all at the root node.  `pi` stands for
`log_pi.exp()` (the prior probabilities), `seat` for `worlds.seats`,
`cp` for `c_puct`.
------------------------------------------------------------------ -/

/-- The data `MCTS.root` reads: the `action_stats` input for the root
row of each environment, the root priors, seats and `c_puct`. -/
structure RootInput (B A S T : ℕ) where
  tree : ASInput B A S T
  pi : Fin B → Fin A → ℚ
  seat : Fin B → Fin S
  cp : ℚ

/-- Float sum of the values of `g` over the action dimension. -/
def sumF {A : ℕ} (g : Fin A → F) : F :=
  (List.finRange A).foldr (fun a acc => fAdd (g a) acc) (F.val 0)

/-- Line 117: `N = n.sum(-1)`. -/
def nVisits (inp : RootInput B A S T) (b : Fin B) : ℕ :=
  ∑ a, asN inp.tree b a

/-- Line 117: `N.clamp(1, None)`. -/
def bigN (inp : RootInput B A S T) (b : Fin B) : ℕ :=
  max (nVisits inp b) 1

/-- Line 118: `lambda_n = c_puct*N/(n_actions + N)`. -/
def lambda_n (inp : RootInput B A S T) (b : Fin B) : ℚ :=
  inp.cp * (bigN inp b : ℚ) / ((A : ℚ) + (bigN inp b : ℚ))

/-- Lines 113-114: the per-seat slice of the normalized `q` that
`MCTS.policy` hands to the solver. -/
def qSeat (inp : RootInput B A S T) (b : Fin B) (a : Fin A) : ℚ :=
  asQ inp.tree b a (inp.seat b)

/-- Line 39: `alpha_min = (q + lambda_n[:, None]*pi).max(-1).values`. -/
def alpha_min (inp : RootInput B A S T) (b : Fin B) : ℚ :=
  listMax ((List.finRange A).map fun a => qSeat inp b a + lambda_n inp b * inp.pi b a)

/-- Line 40: `alpha_max = q.max(-1).values + lambda_n`. -/
def alpha_max (inp : RootInput B A S T) (b : Fin B) : ℚ :=
  listMax ((List.finRange A).map fun a => qSeat inp b a) + lambda_n inp b

/-- Lines 42-48: `policy(alpha)`, with `p[alpha == q] = np.inf`. -/
def polAt (inp : RootInput B A S T) (alpha : ℚ) (b : Fin B) (a : Fin A) : F :=
  if alpha = qSeat inp b a then F.inf
  else F.val (lambda_n inp b * inp.pi b a / (alpha - qSeat inp b a))

/-- Line 49: `error = lambda alpha: policy(alpha).sum(-1) - 1`, elementwise
in the batch. -/
def polError (inp : RootInput B A S T) (b : Fin B) (x : ℚ) : F :=
  fSub (sumF fun a => polAt inp x b a) (F.val 1)

/-- Lines 51-53: solve for `alpha_star` by bisection and return
`policy(alpha_star)`. -/
def regularized_policy (inp : RootInput B A S T) (fuel : ℕ) :
    Except String (Fin B → Fin A → F) :=
  (search (polError inp) (alpha_min inp) (alpha_max inp) (1 / 1000) fuel).map
    fun alpha b a => polAt inp (alpha b) b a

/-- Lines 197-208 (`MCTS.root`): the reported root value
`v = (q*p[..., None]).sum(-2)`. -/
def rootV (inp : RootInput B A S T) (fuel : ℕ) :
    Except String (Fin B → Fin S → F) :=
  (regularized_policy inp fuel).map
    fun p b s => sumF fun a => fMul (F.val (asQ inp.tree b a s)) (p b a)

/-- Entry `(b, s)` of the reported root value, `none` when the bisection
raised. -/
def rootVAt (inp : RootInput B A S T) (fuel : ℕ) (b : Fin B) (s : Fin S) : Option F :=
  match rootV inp fuel with
  | .ok g => some (g b s)
  | .error _ => none

/-- Modelled from the spec's words (for comparison with `rootV`): the
visitation-weighted average of the root children's action values,
`Σ_a (n_a / Σ n) * (w_a / n_a)`. -/
def root_v_visit_weighted (inp : RootInput B A S T) (b : Fin B) (s : Fin S) : ℚ :=
  ∑ a, ((asN inp.tree b a : ℚ) / (nVisits inp b : ℚ)) *
    (asW inp.tree b a s / (asN inp.tree b a : ℚ))

/- ------------------------------------------------------------------
The tree state machine: `MCTS.__init__`/`initialize`/`descend`/`backup`/
`simulate` (lines 57-195), for one environment.  Every tensor operation
of the source is an elementwise masked write per batch index, so one
environment's slice of every loop is exactly this.  `W` is the world
type; `step` is `world.step` (one action for one environment) and `ev`
the evaluator, returning `(logits, v)`.  The categorical draw of
`descend` is determinised by `choose`.
------------------------------------------------------------------ -/

/-- One environment's slice of the `MCTS` object's tensors. -/
structure MctsState (T A S : ℕ) (W : Type) where
  children : Fin T → Fin A → ℤ
  parents : Fin T → ℤ
  relation : Fin T → ℤ
  worlds : Fin T → W
  rewards : Fin T → Fin S → ℚ
  terminal : Fin T → Bool
  logpi : Fin T → Option (Fin A → ℚ)
  n : Fin T → ℕ
  w : Fin T → Fin S → ℚ
  sim : ℕ

variable [NeZero A] {W : Type}

/-- Lines 140-142 of `descend`: `interior & ~terminal` at Python index
`cur` (which may be `-1` and then wraps to the last node, as the source's
`log_pi[envs, current]` read does). -/
def dActive (s : MctsState T A S W) (cur : ℤ) : Bool :=
  (s.logpi (wrap T cur)).isSome && !(s.terminal (wrap T cur))

/-- The `while True` loop of `descend` (lines 139-150) with explicit fuel:
state `(cur, par, act)` mirrors `current/parents/actions`.  Returns `none`
when the fuel runs out with the walk still active. -/
def descendAux (s : MctsState T A S W) (choose : Fin T → Fin A) :
    ℕ → ℤ → ℤ → ℤ → Option (ℤ × ℤ)
  | 0, cur, par, act => if dActive s cur then none else some (par, act)
  | fuel + 1, cur, par, act =>
    if dActive s cur then
      descendAux s choose fuel
        (s.children (wrap T cur) (choose (wrap T cur))) cur
        ((choose (wrap T cur)).val : ℤ)
    else some (par, act)

/-- `MCTS.descend` (lines 134-150): start at the root with
`actions = -1`, `parents = 0`. -/
def descendPA (s : MctsState T A S W) (choose : Fin T → Fin A) : Option (ℤ × ℤ) :=
  descendAux s choose (T + 1) 0 0 (-1)

/-- The `while True` loop of `backup` (lines 154-166) with explicit fuel.
Per iteration at node `c`: zero the carried value if `c` is terminal, add
`c`'s recorded reward, bump `n`, add to `w`, move to `c`'s parent; stop at
the sentinel `-1`. -/
def backupAux (parents : Fin T → ℤ) (terminal : Fin T → Bool)
    (rewards : Fin T → Fin S → ℚ) :
    ℕ → ℤ → (Fin S → ℚ) → (Fin T → ℕ) → (Fin T → Fin S → ℚ) →
    Option ((Fin T → ℕ) × (Fin T → Fin S → ℚ))
  | 0, cur, _, n, w => if cur = -1 then some (n, w) else none
  | fuel + 1, cur, v, n, w =>
    if cur = -1 then some (n, w)
    else
      backupAux parents terminal rewards fuel
        (parents (wrap T cur))
        (fun s1 => (if terminal (wrap T cur) then 0 else v s1) + rewards (wrap T cur) s1)
        (Function.update n (wrap T cur) (n (wrap T cur) + 1))
        (Function.update w (wrap T cur)
          (fun s1 => w (wrap T cur) s1 +
            ((if terminal (wrap T cur) then 0 else v s1) + rewards (wrap T cur) s1)))

/-- The list of nodes the backup walk visits, leaf first. -/
def backupWalk (parents : Fin T → ℤ) : ℕ → ℤ → List (Fin T)
  | 0, _ => []
  | fuel + 1, cur =>
    if cur = -1 then []
    else wrap T cur :: backupWalk parents fuel (parents (wrap T cur))

/-- The carried value at each visited node, paired with the node: at node
`c` the previous carried value is zeroed if `c` is terminal and `c`'s
recorded reward is added. -/
def carriedVals (terminal : Fin T → Bool) (rewards : Fin T → Fin S → ℚ) :
    (Fin S → ℚ) → List (Fin T) → List (Fin T × (Fin S → ℚ))
  | _, [] => []
  | v, c :: rest =>
    (c, fun s1 => (if terminal c then 0 else v s1) + rewards c s1) ::
      carriedVals terminal rewards
        (fun s1 => (if terminal c then 0 else v s1) + rewards c s1) rest

/-- Apply, for each `(node, carried value)` pair in order, the statistics
update `n += 1`, `w += carried`. -/
def applyUpd : List (Fin T × (Fin S → ℚ)) →
    (Fin T → ℕ) → (Fin T → Fin S → ℚ) → (Fin T → ℕ) × (Fin T → Fin S → ℚ)
  | [], n, w => (n, w)
  | (c, v) :: rest, n, w =>
    applyUpd rest (Function.update n c (n c + 1))
      (Function.update w c (fun s1 => w c s1 + v s1))

/-- Lines 176-177 of `simulate`: the leaf is the existing child when the
slot is occupied, else the current simulation counter. -/
def simLeaf (s : MctsState T A S W) (p a : ℤ) : ℤ :=
  if s.children (wrap T p) (wrap A a) = -1 then (s.sim : ℤ)
  else s.children (wrap T p) (wrap A a)

variable (step : W → Fin A → W × ((Fin S → ℚ) × Bool))
variable (ev : W → (Fin A → ℚ) × (Fin S → ℚ))

/-- Lines 179-191 of `simulate`: wire the leaf into the tree, step the
environment from the parent's stored world, store the new world state and
transition at the leaf, and store the evaluator's logits there. -/
def expandState (s : MctsState T A S W) (p a : ℤ) : MctsState T A S W :=
  { children := Function.update s.children (wrap T p)
      (Function.update (s.children (wrap T p)) (wrap A a) (simLeaf s p a)),
    parents := Function.update s.parents (wrap T (simLeaf s p a)) p,
    relation := Function.update s.relation (wrap T (simLeaf s p a)) a,
    worlds := Function.update s.worlds (wrap T (simLeaf s p a))
      (step (s.worlds (wrap T p)) (wrap A a)).1,
    rewards := Function.update s.rewards (wrap T (simLeaf s p a))
      (step (s.worlds (wrap T p)) (wrap A a)).2.1,
    terminal := Function.update s.terminal (wrap T (simLeaf s p a))
      (step (s.worlds (wrap T p)) (wrap A a)).2.2,
    logpi := Function.update s.logpi (wrap T (simLeaf s p a))
      (some (ev (step (s.worlds (wrap T p)) (wrap A a)).1).1),
    n := s.n, w := s.w, sim := s.sim }

/-- How a `simulate` call can fail. -/
inductive SimErr where
  | budget : SimErr
  | stuck : SimErr
deriving DecidableEq

/-- `MCTS.simulate` (lines 168-195): budget check, descend, expand,
evaluate, backup, bump the counter.  `.error .budget` is the
`ValueError` of lines 169-170; `.error .stuck` stands for a
non-terminating `while True` loop (exhausted fuel). -/
def simulate (s : MctsState T A S W) (choose : Fin T → Fin A) :
    Except SimErr (MctsState T A S W) :=
  if T ≤ s.sim then .error .budget
  else
    match descendPA s choose with
    | none => .error .stuck
    | some (p, a) =>
      match backupAux (expandState step ev s p a).parents
          (expandState step ev s p a).terminal (expandState step ev s p a).rewards
          (T + 1) (simLeaf s p a)
          ((ev (step (s.worlds (wrap T p)) (wrap A a)).1).2) s.n s.w with
      | none => .error .stuck
      | some nw =>
        .ok { expandState step ev s p a with n := nw.1, w := nw.2, sim := s.sim + 1 }

/-- `simulate`, with a raised error modelled as in Python: the exception
propagates and the object is left as it was. -/
def simulateD (s : MctsState T A S W) (choose : Fin T → Fin A) : MctsState T A S W :=
  match simulate step ev s choose with
  | .ok s1 => s1
  | .error _ => s

/-- `MCTS.__init__` (lines 57-88) for one environment: every tensor at
its fill value, `worlds` stacked copies of the initial world, `sim = 0`. -/
def initState (w0 : W) : MctsState T A S W :=
  { children := fun _ _ => -1, parents := fun _ => -1, relation := fun _ => -1,
    worlds := fun _ => w0, rewards := fun _ _ => 0, terminal := fun _ => false,
    logpi := fun _ => none, n := fun _ => 0, w := fun _ _ => 0, sim := 0 }

/-- `MCTS.initialize` (lines 128-132): evaluate the root world, write the
logits at index `sim`, bump the counter. -/
def initRoot (s : MctsState T A S W) : MctsState T A S W :=
  { s with
    logpi := Function.update s.logpi (wrap T (s.sim : ℤ))
      (some (ev (s.worlds (wrap T 0))).1),
    sim := s.sim + 1 }

/-- The states of one environment's tree reachable by the public
operations: `__init__` + `initialize`, then any number of `simulate`
calls (each with its own sampled actions). -/
inductive Reachable : MctsState T A S W → Prop where
  | base (w0 : W) : Reachable (initRoot ev (initState w0))
  | next {s : MctsState T A S W} (choose : Fin T → Fin A) :
      Reachable s → Reachable (simulateD step ev s choose)

/-- The machine invariant tying the tree together: the counter is in
range, allocated nodes sit below the counter, the root is allocated and
non-terminal, parent links point strictly downward, child links point
strictly upward and below the counter, and every occupied child slot
stores exactly the world/transition that stepping the parent's stored
world with that action produces. -/
structure Inv (s : MctsState T A S W) : Prop where
  sim_pos : 1 ≤ s.sim
  sim_le : s.sim ≤ T
  alloc_lt : ∀ j, (s.logpi j).isSome → j.val < s.sim
  root_alloc : (s.logpi (wrap T 0)).isSome
  root_nonterm : s.terminal (wrap T 0) = false
  par_lb : ∀ j, -1 ≤ s.parents j
  par_lt : ∀ j, s.parents j < (j.val : ℤ)
  child_spec : ∀ j a, s.children j a = -1 ∨
    ((j.val : ℤ) < s.children j a ∧ s.children j a < (s.sim : ℤ))
  snap : ∀ j a, s.children j a ≠ -1 →
    s.worlds (wrap T (s.children j a)) = (step (s.worlds j) a).1 ∧
    s.rewards (wrap T (s.children j a)) = (step (s.worlds j) a).2.1 ∧
    s.terminal (wrap T (s.children j a)) = (step (s.worlds j) a).2.2

/- ------------------------------------------------------------------
Concrete instances used by the counterexamples and witnesses below.
------------------------------------------------------------------ -/

/-- A residual that makes its single element "bad": `f(x) = x - 2`, so
`f(0) = -2 < -tol` on the bracket `[0, 1]`, and `|f(0)| = 2 > 1 = |f(1)|`. -/
def f_bad_bracket : Fin 1 → ℚ → F := fun _ x => F.val (x - 2)

/-- A residual that is NaN everywhere. -/
def f_nan_const : Fin 1 → ℚ → F := fun _ _ => F.nan

/-- A residual that is NaN exactly at the first midpoint `1/2` of the
bracket `[0, 1]` and `0` elsewhere. -/
def f_nan_mid : Fin 1 → ℚ → F := fun _ x => if x = 1 / 2 then F.nan else F.val 0

/-- Two environments, one action, one seat, two nodes: both roots have
their sole child at node 1 with one visit; environment 0's child has
value sum 1, environment 1's has value sum 0. -/
def inpPair : ASInput 2 1 1 2 :=
  { children := fun _ _ => 1,
    statsN := fun _ t => if t.val = 1 then 1 else 0,
    statsW := fun b t _ => if b.val = 0 ∧ t.val = 1 then 1 else 0 }

/-- Environment 0 of `inpPair` run as a batch of one. -/
def inpSolo : ASInput 1 1 1 2 :=
  { children := fun _ _ => 1,
    statsN := fun _ t => if t.val = 1 then 1 else 0,
    statsW := fun _ t _ => if t.val = 1 then 1 else 0 }

/-- `inpPair` with the two environments' roles exchanged. -/
def inpPairSwap : ASInput 2 1 1 2 :=
  { children := fun _ _ => 1,
    statsN := fun _ t => if t.val = 1 then 1 else 0,
    statsW := fun b t _ => if b.val = 1 ∧ t.val = 1 then 1 else 0 }

/-- A root with a single action whose sole child (node 1) has been
visited twice with total value 2 — so the child's raw action value
`w/n` is `1` —, uniform prior, seat 0, the default `c_puct = 2.5`. -/
def inpRoot : RootInput 1 1 1 2 :=
  { tree :=
      { children := fun _ _ => 1,
        statsN := fun _ t => if t.val = 1 then 2 else 0,
        statsW := fun _ t _ => if t.val = 1 then 2 else 0 },
    pi := fun _ _ => 1,
    seat := fun _ => 0,
    cp := 5 / 2 }

/-- A world/step pair on `ℕ`: stepping increments the state and is
immediately terminal with reward 1. -/
def exStep : ℕ → Fin 1 → ℕ × ((Fin 1 → ℚ) × Bool) := fun w _ => (w + 1, (fun _ => 1, true))

/-- An evaluator returning zero logits and zero value. -/
def exEv : ℕ → (Fin 1 → ℚ) × (Fin 1 → ℚ) := fun _ => (fun _ => 0, fun _ => 0)

/-- The determinised action choice: always action 0. -/
def exChoose : Fin 3 → Fin 1 := fun _ => 0

/-- A three-node tree on the world `7`, after `__init__` + `initialize`. -/
def ex3S0 : MctsState 3 1 1 ℕ := initRoot exEv (initState 7)

/-- `ex3S0` after one `simulate`: expands node 1 (terminal). -/
def ex3S1 : MctsState 3 1 1 ℕ := simulateD exStep exEv ex3S0 exChoose

/-- `ex3S1` after another `simulate`: the descent stops at the terminal
child 1 again, which is reused. -/
def ex3S2 : MctsState 3 1 1 ℕ := simulateD exStep exEv ex3S1 exChoose

/-- A standalone parent table for the backup witness: node 1's parent is
the root, the root's parent is the sentinel. -/
def exPar : Fin 3 → ℤ := fun j => if j.val = 1 then 0 else -1

/-- Node 1 is terminal. -/
def exTerm : Fin 3 → Bool := fun j => j.val == 1

/-- Node 1 carries reward 1. -/
def exRew : Fin 3 → Fin 1 → ℚ := fun j _ => if j.val = 1 then 1 else 0

/-- A three-node tree whose simulation counter has overrun its budget. -/
def exFull : MctsState 3 1 1 ℕ := { initState 7 with sim := 5 }

/- ==================================================================
Theorems.
================================================================== -/

/-- C3: evidence of the divergence.  On the single-element input
`f(x) = x - 2`, bracket `[0, 1]`, `tol = 1/1000`, the element is flagged
bad at entry, the right endpoint has the strictly smaller absolute
residual (`|f(1)| = 1 < 2 = |f(0)|`), yet `search` returns the LEFT
endpoint `0`: line 23 of the source assigns `xl[fallback_r]` where its
own comment (lines 6-9) requires the better endpoint, `xr`. -/
theorem c3_bad_fallback_returns_left_endpoint :
    badMask f_bad_bracket (1 / 1000) (fun _ => 0) (fun _ => 1) 0 = true ∧
    fLt (fAbs (f_bad_bracket 0 1)) (fAbs (f_bad_bracket 0 0)) = true ∧
    searchAt f_bad_bracket (fun _ => 0) (fun _ => 1) (1 / 1000) 5 0 = some 0 := by
  refine ⟨?_, ?_, ?_⟩ <;>
    norm_num [searchAt, search, searchAux, sResolved, sConverged, sUnderflow, badMask,
      midpoint, sReturn, sNanAt, f_bad_bracket, List.finRange, List.all, F.fLt, F.fLe, F.fAbs]

/-- C8 is false as stated: on a degenerate bracket `xl = xr = 0` with a
residual that is NaN at every point, the very first iteration already has
every element resolved (underflow), so `search` returns `xm = 0` without
ever reaching the NaN check — no error is raised. -/
theorem c8_nan_not_raised_when_resolved :
    fIsNaN (f_nan_const 0 0) = true ∧
    searchAt f_nan_const (fun _ => 0) (fun _ => 0) (1 / 1000) 5 0 = some 0 := by
  refine ⟨rfl, ?_⟩
  norm_num [searchAt, search, searchAux, sResolved, sConverged, sUnderflow, badMask,
    midpoint, sReturn, sNanAt, f_nan_const, List.finRange, List.all, F.fLt, F.fLe, F.fAbs,
    F.fIsNaN, F.fAdd]

/-- C8 (amended): a NaN among the residuals evaluated during an iteration
of the bisection (left endpoint, midpoint or right endpoint) aborts the
whole batched search with the `Hit a nan` error, PROVIDED that iteration
does not already return — i.e. provided not every batch element is
converged, underflowed or bad at that iteration.  (When every element is
resolved, the search returns before the NaN check; see the
counterexample.) -/
theorem c8_nan_raises_when_unresolved (f : Fin B → ℚ → F) (tol : ℚ)
    (bad : Fin B → Bool) (xl xr : Fin B → ℚ) (fuel : ℕ)
    (hguard : (List.finRange B).all (fun b => sResolved f tol bad xl xr b) = false)
    (hnan : (List.finRange B).any (fun b => sNanAt f xl xr b) = true) :
    searchAux f tol bad (fuel + 1) xl xr = .error "Hit a nan" := by
  unfold searchAux
  simp [hguard, hnan]

/-- Witness for `c8_nan_raises_when_unresolved`: the bracket `[0, 1]`
with a residual that is NaN at the midpoint and `0` at the endpoints is
not resolved on the first iteration, and indeed errors. -/
theorem c8_nan_raises_when_unresolved_witness :
    searchAux f_nan_mid (1 / 1000) (fun _ => false) 5 (fun _ => 0) (fun _ => 1) =
      .error "Hit a nan" :=
  c8_nan_raises_when_unresolved f_nan_mid (1 / 1000) (fun _ => false)
    (fun _ => 0) (fun _ => 1) 4
    (by norm_num [sResolved, sConverged, sUnderflow, midpoint, f_nan_mid,
      List.finRange, List.all, F.fLt, F.fAbs])
    (by norm_num [sNanAt, midpoint, f_nan_mid, List.finRange, List.any,
      F.fIsNaN, F.fAdd])

theorem foldl_min_le_init (xs : List ℚ) (a : ℚ) : xs.foldl min a ≤ a := by
  induction xs generalizing a with
  | nil => simp
  | cons y ys ih => exact le_trans (ih (min a y)) (min_le_left a y)

theorem foldl_min_le_mem {x : ℚ} (xs : List ℚ) (a : ℚ) (hx : x ∈ xs) :
    xs.foldl min a ≤ x := by
  induction xs generalizing a with
  | nil => cases hx
  | cons y ys ih =>
    rcases List.mem_cons.mp hx with h | h
    · subst h
      exact le_trans (foldl_min_le_init ys (min a x)) (min_le_right a x)
    · exact ih (min a y) h

theorem listMin_le_mem {l : List ℚ} {x : ℚ} (hx : x ∈ l) : listMin l ≤ x := by
  cases l with
  | nil => cases hx
  | cons y ys =>
    rcases List.mem_cons.mp hx with h | h
    · subst h; exact foldl_min_le_init ys x
    · exact foldl_min_le_mem ys y h

theorem init_le_foldl_max (xs : List ℚ) (a : ℚ) : a ≤ xs.foldl max a := by
  induction xs generalizing a with
  | nil => simp
  | cons y ys ih => exact le_trans (le_max_left a y) (ih (max a y))

theorem mem_le_foldl_max {x : ℚ} (xs : List ℚ) (a : ℚ) (hx : x ∈ xs) :
    x ≤ xs.foldl max a := by
  induction xs generalizing a with
  | nil => cases hx
  | cons y ys ih =>
    rcases List.mem_cons.mp hx with h | h
    · subst h
      exact le_trans (le_max_right a x) (init_le_foldl_max ys (max a x))
    · exact ih (max a y) h

theorem mem_le_listMax {l : List ℚ} {x : ℚ} (hx : x ∈ l) : x ≤ listMax l := by
  cases l with
  | nil => cases hx
  | cons y ys =>
    rcases List.mem_cons.mp hx with h | h
    · subst h; exact init_le_foldl_max ys x
    · exact mem_le_foldl_max ys y h

theorem asQ0_mem_qEntries (inp : ASInput B A S T) (b : Fin B) (a : Fin A) (s : Fin S) :
    asQ0 inp b a s ∈ qEntries inp := by
  unfold qEntries
  refine List.mem_flatMap.mpr ⟨b, List.mem_finRange b, ?_⟩
  refine List.mem_flatMap.mpr ⟨a, List.mem_finRange a, ?_⟩
  exact List.mem_map.mpr ⟨s, List.mem_finRange s, rfl⟩

theorem gmin_le_asQ0 (inp : ASInput B A S T) (b : Fin B) (a : Fin A) (s : Fin S) :
    gmin inp ≤ asQ0 inp b a s :=
  listMin_le_mem (asQ0_mem_qEntries inp b a s)

theorem asQ0_le_gmax (inp : ASInput B A S T) (b : Fin B) (a : Fin A) (s : Fin S) :
    asQ0 inp b a s ≤ gmax inp :=
  mem_le_listMax (asQ0_mem_qEntries inp b a s)

/-- C1 is false as stated: in `inpPair` the code's returned `q` for
environment 0 is rescaled with the minimum and maximum of the WHOLE
batched tensor (which includes environment 1's value 0), giving
`1000000/1000001`, while the per-node min-max formula of the claim gives
`0`. -/
theorem c1_per_node_normalization_false :
    asQ inpPair 0 0 0 = 1000000 / 1000001 ∧
    q_minmax_per_node inpPair 0 0 0 = 0 ∧
    asQ inpPair 0 0 0 ≠ q_minmax_per_node inpPair 0 0 0 := by
  refine ⟨?h1, ?h2, ?h3⟩
  case h1 =>
    norm_num [asQ, asQ0, asN, asW, asMask, gmin, gmax, qEntries, listMin, listMax,
      inpPair, List.finRange, wrap]
  case h2 =>
    norm_num [q_minmax_per_node, asQ0, asN, asW, asMask, listMin, listMax,
      inpPair, List.finRange, wrap]
  case h3 =>
    norm_num [asQ, q_minmax_per_node, asQ0, asN, asW, asMask, gmin, gmax, qEntries,
      listMin, listMax, inpPair, List.finRange, wrap]

/-- C1 (amended): the rescaling `action_stats` applies is min-max over
the ENTIRE batched tensor of the call — all rows, actions and seats
jointly — not per node: every visited action's returned value is
`(q0 - q.min())/(q.max() - q.min() + 1e-6)`, which lies in `[0, 1]`, and
every zero-visit action's value is `0`. -/
theorem c1_global_minmax_normalization (inp : ASInput B A S T)
    (b : Fin B) (a : Fin A) (s : Fin S) :
    (asN inp b a ≠ 0 →
      asQ inp b a s =
        (asQ0 inp b a s - gmin inp) / (gmax inp - gmin inp + 1 / 1000000)) ∧
    (asN inp b a = 0 → asQ inp b a s = 0) ∧
    0 ≤ asQ inp b a s ∧ asQ inp b a s ≤ 1 := by
  have hden : 0 < gmax inp - gmin inp + 1 / 1000000 := by
    have h1 : gmin inp ≤ gmax inp :=
      le_trans (gmin_le_asQ0 inp b a s) (asQ0_le_gmax inp b a s)
    linarith
  refine ⟨fun hn => by simp [asQ, hn], fun hn => by simp [asQ, hn], ?_, ?_⟩
  · unfold asQ
    split
    · exact le_refl 0
    · apply div_nonneg _ (le_of_lt hden)
      have := gmin_le_asQ0 inp b a s
      linarith
  · unfold asQ
    split
    · exact zero_le_one
    · rw [div_le_one hden]
      have := asQ0_le_gmax inp b a s
      linarith

/-- Witness for `c1_global_minmax_normalization` at `inpPair`,
environment 0, whose sole action is visited. -/
theorem c1_global_minmax_normalization_witness :
    asN inpPair 0 0 ≠ 0 ∧
    asQ inpPair 0 0 0 =
      (asQ0 inpPair 0 0 0 - gmin inpPair) / (gmax inpPair - gmin inpPair + 1 / 1000000) :=
  ⟨by norm_num [asN, asMask, inpPair, wrap],
    (c1_global_minmax_normalization inpPair 0 0 0).1
      (by norm_num [asN, asMask, inpPair, wrap])⟩

/-- C2 is false as stated: environment 0's data is identical in
`inpPair` (a batch of two) and `inpSolo` (the same environment run as a
batch of one), yet the `q` that `action_stats` reports for environment 0
differs between the two runs, because the min-max rescaling reads the
other environment's statistics through the whole-tensor `q.min()` and
`q.max()`. -/
theorem c2_batch_invariance_false :
    inpPair.children 0 0 = inpSolo.children 0 0 ∧
    inpPair.statsN 0 0 = inpSolo.statsN 0 0 ∧
    inpPair.statsN 0 1 = inpSolo.statsN 0 1 ∧
    inpPair.statsW 0 0 0 = inpSolo.statsW 0 0 0 ∧
    inpPair.statsW 0 1 0 = inpSolo.statsW 0 1 0 ∧
    asQ inpPair 0 0 0 ≠ asQ inpSolo 0 0 0 := by
  refine ⟨rfl, rfl, rfl, by norm_num [inpPair, inpSolo], by norm_num [inpPair, inpSolo], ?_⟩
  norm_num [asQ, asQ0, asN, asW, asMask, gmin, gmax, qEntries, listMin, listMax,
    inpPair, inpSolo, List.finRange, wrap]

/-- C2 (amended): the tree reads and the visit counts are genuinely
per-environment — environment `b`'s `n` output depends only on
environment `b`'s own row — and the returned `q` depends on the other
environments ONLY through the global minimum and maximum of the zeroed
`q` tensor: two runs (of any batch sizes) that agree on a row and on the
two global extrema report identical outputs for that row. -/
theorem c2_noninterference_modulo_global_extrema {B1 B2 : ℕ}
    (inp : ASInput B1 A S T) (inp1 : ASInput B2 A S T) (b : Fin B1) (b1 : Fin B2)
    (hc : ∀ a, inp.children b a = inp1.children b1 a)
    (hn : ∀ t, inp.statsN b t = inp1.statsN b1 t)
    (hw : ∀ t s1, inp.statsW b t s1 = inp1.statsW b1 t s1)
    (hmin : gmin inp = gmin inp1) (hmax : gmax inp = gmax inp1) :
    (∀ a, asN inp b a = asN inp1 b1 a) ∧
    (∀ a s1, asQ inp b a s1 = asQ inp1 b1 a s1) := by
  have hmask : ∀ a, asMask inp b a = asMask inp1 b1 a := by
    intro a; simp [asMask, hc]
  have hN : ∀ a, asN inp b a = asN inp1 b1 a := by
    intro a; simp [asN, hmask, hc, hn]
  have hW : ∀ a s1, asW inp b a s1 = asW inp1 b1 a s1 := by
    intro a s1; simp [asW, hmask, hc, hw]
  have hQ0 : ∀ a s1, asQ0 inp b a s1 = asQ0 inp1 b1 a s1 := by
    intro a s1; simp [asQ0, hN, hW]
  refine ⟨hN, fun a s1 => ?_⟩
  simp [asQ, hN, hQ0, hmin, hmax]

/-- Witness for `c2_noninterference_modulo_global_extrema`: environment 0
of `inpPair` and environment 1 of `inpPairSwap` carry the same row data,
and the two batches have the same global extrema, so the reported
outputs agree. -/
theorem c2_noninterference_modulo_global_extrema_witness :
    asN inpPair 0 0 = asN inpPairSwap 1 0 ∧
    asQ inpPair 0 0 0 = asQ inpPairSwap 1 0 0 :=
  ⟨(c2_noninterference_modulo_global_extrema inpPair inpPairSwap 0 1
      (fun _ => rfl)
      (fun t => by fin_cases t <;> norm_num [inpPair, inpPairSwap])
      (fun t s1 => by fin_cases t <;> norm_num [inpPair, inpPairSwap])
      (by norm_num [gmin, qEntries, asQ0, asN, asW, asMask, inpPair, inpPairSwap,
        List.finRange, listMin, wrap])
      (by norm_num [gmax, qEntries, asQ0, asN, asW, asMask, inpPair, inpPairSwap,
        List.finRange, listMax, wrap])).1 0,
    (c2_noninterference_modulo_global_extrema inpPair inpPairSwap 0 1
      (fun _ => rfl)
      (fun t => by fin_cases t <;> norm_num [inpPair, inpPairSwap])
      (fun t s1 => by fin_cases t <;> norm_num [inpPair, inpPairSwap])
      (by norm_num [gmin, qEntries, asQ0, asN, asW, asMask, inpPair, inpPairSwap,
        List.finRange, listMin, wrap])
      (by norm_num [gmax, qEntries, asQ0, asN, asW, asMask, inpPair, inpPairSwap,
        List.finRange, listMax, wrap])).2 0 0⟩


/-- Helper: the reported root value, given the bisection's result for
environment `b`. -/
theorem rootVAt_of_searchAt (inp : RootInput B A S T) (fuel : ℕ)
    (b : Fin B) (s : Fin S) (alphab : ℚ)
    (h : searchAt (polError inp) (alpha_min inp) (alpha_max inp) (1 / 1000) fuel b =
      some alphab) :
    rootVAt inp fuel b s =
      some (sumF fun a => fMul (F.val (asQ inp.tree b a s)) (polAt inp alphab b a)) := by
  unfold searchAt at h
  unfold rootVAt rootV regularized_policy
  cases hs : search (polError inp) (alpha_min inp) (alpha_max inp) (1 / 1000) fuel with
  | error e => rw [hs] at h; cases h
  | ok g =>
    rw [hs] at h
    have hg : g b = alphab := by
      simpa using h
    simp [Except.map, hg]

/-- Helper: on `inpRoot` the single child's normalized action value is 0
(its raw `w/n` is 1, and it is both the global min and max). -/
theorem inpRoot_asQ : asQ inpRoot.tree 0 0 0 = 0 := by
  norm_num [asQ, asQ0, asN, asW, asMask, gmin, gmax, qEntries, listMin, listMax,
    inpRoot, List.finRange, wrap]

/-- Helper: the per-seat `q` slice at `inpRoot`. -/
theorem inpRoot_qSeat : qSeat inpRoot 0 0 = 0 := by
  norm_num [qSeat, asQ, asQ0, asN, asW, asMask, gmin, gmax, qEntries, listMin,
    listMax, inpRoot, List.finRange, wrap]

/-- Helper: `lambda_n = 2.5 * 2 / (1 + 2) = 5/3` at `inpRoot`. -/
theorem inpRoot_lambda : lambda_n inpRoot 0 = 5 / 3 := by
  norm_num [lambda_n, bigN, nVisits, asN, asMask, inpRoot, wrap, Fin.sum_univ_one]

/-- Helper: the prior at `inpRoot` is 1. -/
theorem inpRoot_pi : inpRoot.pi 0 0 = 1 := rfl

/-- Helper: both bisection brackets collapse to `5/3` at `inpRoot`. -/
theorem inpRoot_alpha_min : alpha_min inpRoot 0 = 5 / 3 := by
  norm_num [alpha_min, List.finRange, listMax, inpRoot_qSeat, inpRoot_lambda, inpRoot_pi]

theorem inpRoot_alpha_max : alpha_max inpRoot 0 = 5 / 3 := by
  norm_num [alpha_max, List.finRange, listMax, inpRoot_qSeat, inpRoot_lambda]

/-- Helper: the policy residual vanishes at `5/3` on `inpRoot`. -/
theorem inpRoot_polError : polError inpRoot 0 (5 / 3) = F.val 0 := by
  norm_num [polError, polAt, sumF, inpRoot_qSeat, inpRoot_lambda, inpRoot_pi,
    List.finRange, F.fAdd, F.fSub, F.fNeg]

/-- Helper: the bisection on `inpRoot` converges on its first iteration
to `5/3`, for any positive fuel. -/
theorem inpRoot_searchAt (fuel : ℕ) :
    searchAt (polError inpRoot) (alpha_min inpRoot) (alpha_max inpRoot) (1 / 1000)
      (fuel + 1) 0 = some (5 / 3) := by
  have hmid : midpoint (alpha_min inpRoot) (alpha_max inpRoot) 0 = 5 / 3 := by
    norm_num [midpoint, inpRoot_alpha_min, inpRoot_alpha_max]
  have hbad : badMask (polError inpRoot) (1 / 1000) (alpha_min inpRoot)
      (alpha_max inpRoot) 0 = false := by
    norm_num [badMask, inpRoot_alpha_min, inpRoot_alpha_max, inpRoot_polError, F.fLt]
  have hconv : sConverged (polError inpRoot) (1 / 1000) (alpha_min inpRoot)
      (alpha_max inpRoot) 0 = true := by
    norm_num [sConverged, hmid, inpRoot_polError, F.fAbs, F.fLt]
  have hbad1 : badMask (polError inpRoot) 1000⁻¹ (alpha_min inpRoot)
      (alpha_max inpRoot) 0 = false := by
    rw [show ((1000 : ℚ)⁻¹) = 1 / 1000 by norm_num]
    exact hbad
  unfold searchAt search
  simp only [searchAux]
  rw [List.all_eq_true.mpr (by
    intro b _
    have hb : b = 0 := Subsingleton.elim b 0
    rw [hb, sResolved, hconv]
    simp)]
  simp only [if_true]
  simp [sReturn, hbad, hbad1, hmid]

/-- C4 is false as stated: on `inpRoot` (one action, whose child was
visited twice with accumulated value 2) the visitation-weighted average
of the children's action values is `(2/2) * (2/2) = 1`, but `MCTS.root`
reports `0`: the single action's policy weight is exactly `1`, and the
`q` entering the product is the min-max-NORMALIZED value `0`, not the
raw `w/n = 1`. -/
theorem c4_visit_weighted_false :
    rootVAt inpRoot 10 0 0 = some (F.val 0) ∧
    root_v_visit_weighted inpRoot 0 0 = 1 ∧
    rootVAt inpRoot 10 0 0 ≠ some (F.val (root_v_visit_weighted inpRoot 0 0)) := by
  have hsum : ∀ g : Fin 1 → F, sumF g = fAdd (g 0) (F.val 0) := fun g => by
    simp [sumF, List.finRange]
  have hp : polAt inpRoot (5 / 3) 0 0 = F.val 1 := by
    rw [polAt, inpRoot_qSeat, inpRoot_lambda, inpRoot_pi]
    norm_num
  have h1 : rootVAt inpRoot 10 0 0 = some (F.val 0) := by
    rw [rootVAt_of_searchAt inpRoot 10 0 0 (5 / 3) (inpRoot_searchAt 9), hsum,
      inpRoot_asQ, hp]
    norm_num [F.fMul, F.fAdd]
  have h2 : root_v_visit_weighted inpRoot 0 0 = 1 := by
    norm_num [root_v_visit_weighted, nVisits, asN, asW, asMask, inpRoot, wrap,
      Fin.sum_univ_one]
  refine ⟨h1, h2, ?_⟩
  rw [h1, h2]
  norm_num

/-- C4 (amended): the value `MCTS.root` reports is the POLICY-weighted
sum of the min-max-normalized action values: whenever the bisection
returns a normalizing constant `alphab` for environment `b`, the reported
`v[b, s]` equals `Σ_a q_norm[b, a, s] * p[b, a]` with `p` the
regularized-policy weights at `alphab` — not the visit-count-weighted
average of the raw `w/n` values. -/
theorem c4_policy_weighted_normalized_value (inp : RootInput B A S T) (fuel : ℕ)
    (b : Fin B) (s : Fin S) (alphab : ℚ)
    (h : searchAt (polError inp) (alpha_min inp) (alpha_max inp) (1 / 1000) fuel b =
      some alphab) :
    rootVAt inp fuel b s =
      some (sumF fun a => fMul (F.val (asQ inp.tree b a s)) (polAt inp alphab b a)) :=
  rootVAt_of_searchAt inp fuel b s alphab h

/-- Witness for `c4_policy_weighted_normalized_value`: on `inpRoot` the
bisection converges immediately to `alpha = 5/3`. -/
theorem c4_policy_weighted_normalized_value_witness :
    rootVAt inpRoot 10 0 0 =
      some (sumF fun a => fMul (F.val (asQ inpRoot.tree 0 a 0)) (polAt inpRoot (5 / 3) 0 a)) :=
  c4_policy_weighted_normalized_value inpRoot 10 0 0 (5 / 3) (inpRoot_searchAt 9)

/- ------------------------------------------------------------------
Lemmas about the index wrap and the backup walk.
------------------------------------------------------------------ -/

theorem wrap_coe_int {n : ℕ} [NeZero n] {i : ℤ} (h0 : 0 ≤ i) (h : i < (n : ℤ)) :
    (((wrap n i).val : ℕ) : ℤ) = i := by
  have he : i % (n : ℤ) = i := Int.emod_eq_of_lt h0 h
  simp [wrap, he, Int.toNat_of_nonneg h0]

theorem wrap_neg_one {n : ℕ} [NeZero n] :
    (((wrap n (-1)).val : ℕ) : ℤ) = (n : ℤ) - 1 := by
  have hn : (0 : ℤ) < (n : ℤ) := by
    exact_mod_cast Nat.pos_of_ne_zero (NeZero.ne n)
  have h1 : ((-1 : ℤ) + (n : ℤ) * 1) % (n : ℤ) = (-1 : ℤ) % (n : ℤ) :=
    Int.add_mul_emod_self_left (-1) (n : ℤ) 1
  have h2 : (-1 : ℤ) % (n : ℤ) = (n : ℤ) - 1 := by
    rw [← h1]
    have hs : (-1 : ℤ) + (n : ℤ) * 1 = (n : ℤ) - 1 := by ring
    rw [hs]
    exact Int.emod_eq_of_lt (by omega) (by omega)
  simp [wrap, h2, Int.toNat_of_nonneg (by omega : (0 : ℤ) ≤ (n : ℤ) - 1)]
  omega

/-- No fuel is spent on an inactive sentinel: the walk from `-1` is empty. -/
theorem backupWalk_neg_one {T : ℕ} [NeZero T] (parents : Fin T → ℤ) (fuel : ℕ) :
    backupWalk parents fuel (-1) = [] := by
  cases fuel <;> simp [backupWalk]

theorem backupWalk_ne_nil {T : ℕ} [NeZero T] (parents : Fin T → ℤ) (fuel : ℕ)
    (cur : ℤ) (h0 : 0 ≤ cur) (h3 : cur < (fuel : ℤ)) :
    backupWalk parents fuel cur ≠ [] := by
  cases fuel with
  | zero => omega
  | succ fuel =>
    have hc : ¬cur = -1 := by omega
    simp [backupWalk, hc]

theorem backupWalk_mem_le {T : ℕ} [NeZero T] (parents : Fin T → ℤ)
    (hdec : ∀ j, -1 ≤ parents j ∧ parents j < (j.val : ℤ)) :
    ∀ (fuel : ℕ) (cur : ℤ), -1 ≤ cur → cur < (T : ℤ) →
      ∀ x ∈ backupWalk parents fuel cur, ((x.val : ℕ) : ℤ) ≤ cur := by
  intro fuel
  induction fuel with
  | zero => intro cur _ _ x hx; simp [backupWalk] at hx
  | succ fuel ih =>
    intro cur h1 h2 x hx
    by_cases hc : cur = -1
    · subst hc; simp [backupWalk] at hx
    · have h0 : 0 ≤ cur := by omega
      have hv : (((wrap T cur).val : ℕ) : ℤ) = cur := wrap_coe_int h0 h2
      rw [backupWalk, if_neg hc] at hx
      rcases List.mem_cons.mp hx with h | h
      · subst h; omega
      · have hp := hdec (wrap T cur)
        have := ih (parents (wrap T cur)) (hp.1) (by omega) x h
        omega

theorem backupWalk_pairwise {T : ℕ} [NeZero T] (parents : Fin T → ℤ)
    (hdec : ∀ j, -1 ≤ parents j ∧ parents j < (j.val : ℤ)) :
    ∀ (fuel : ℕ) (cur : ℤ), -1 ≤ cur → cur < (T : ℤ) →
      (backupWalk parents fuel cur).Pairwise
        (fun x y => ((y.val : ℕ) : ℤ) < ((x.val : ℕ) : ℤ)) := by
  intro fuel
  induction fuel with
  | zero => intro cur _ _; simp [backupWalk]
  | succ fuel ih =>
    intro cur h1 h2
    by_cases hc : cur = -1
    · subst hc; simp [backupWalk]
    · have h0 : 0 ≤ cur := by omega
      have hv : (((wrap T cur).val : ℕ) : ℤ) = cur := wrap_coe_int h0 h2
      rw [backupWalk, if_neg hc]
      refine List.Pairwise.cons ?_ (ih (parents (wrap T cur)) (hdec (wrap T cur)).1
        (by have := (hdec (wrap T cur)).2; omega))
      intro y hy
      have hyle := backupWalk_mem_le parents hdec fuel (parents (wrap T cur))
        (hdec (wrap T cur)).1 (by have := (hdec (wrap T cur)).2; omega) y hy
      have := (hdec (wrap T cur)).2
      omega

theorem backupWalk_last {T : ℕ} [NeZero T] (parents : Fin T → ℤ)
    (hdec : ∀ j, -1 ≤ parents j ∧ parents j < (j.val : ℤ)) :
    ∀ (fuel : ℕ) (cur : ℤ), -1 ≤ cur → cur < (T : ℤ) → cur < (fuel : ℤ) →
      ∀ c, (backupWalk parents fuel cur).getLast? = some c → parents c = -1 := by
  intro fuel
  induction fuel with
  | zero =>
    intro cur h1 _ h3 c hc
    have : cur = -1 := by omega
    subst this
    simp [backupWalk] at hc
  | succ fuel ih =>
    intro cur h1 h2 h3 c hlast
    by_cases hc : cur = -1
    · subst hc; simp [backupWalk] at hlast
    · have h0 : 0 ≤ cur := by omega
      have hv : (((wrap T cur).val : ℕ) : ℤ) = cur := wrap_coe_int h0 h2
      rw [backupWalk, if_neg hc] at hlast
      by_cases hp : parents (wrap T cur) = -1
      · rw [hp, backupWalk_neg_one] at hlast
        simp at hlast
        rw [← hlast]
        exact hp
      · have hpb := hdec (wrap T cur)
        have hp0 : 0 ≤ parents (wrap T cur) := by omega
        have hpf : parents (wrap T cur) < (fuel : ℤ) := by omega
        cases hrest : backupWalk parents fuel (parents (wrap T cur)) with
        | nil => exact absurd hrest (backupWalk_ne_nil parents fuel _ hp0 hpf)
        | cons r rs =>
          rw [hrest] at hlast
          rw [List.getLast?_cons_cons] at hlast
          rw [← hrest] at hlast
          exact ih (parents (wrap T cur)) hpb.1 (by omega) hpf c hlast

theorem backupAux_spec {T S : ℕ} [NeZero T] (parents : Fin T → ℤ)
    (terminal : Fin T → Bool) (rewards : Fin T → Fin S → ℚ)
    (hdec : ∀ j, -1 ≤ parents j ∧ parents j < (j.val : ℤ)) :
    ∀ (fuel : ℕ) (cur : ℤ) (v : Fin S → ℚ) (n : Fin T → ℕ) (w : Fin T → Fin S → ℚ),
      -1 ≤ cur → cur < (T : ℤ) → cur < (fuel : ℤ) →
      backupAux parents terminal rewards fuel cur v n w =
        some (applyUpd (carriedVals terminal rewards v (backupWalk parents fuel cur)) n w) := by
  intro fuel
  induction fuel with
  | zero =>
    intro cur v n w h1 h2 h3
    have hc : cur = -1 := by omega
    subst hc
    simp [backupAux, backupWalk, carriedVals, applyUpd]
  | succ fuel ih =>
    intro cur v n w h1 h2 h3
    by_cases hc : cur = -1
    · subst hc; simp [backupAux, backupWalk, carriedVals, applyUpd]
    · have h0 : 0 ≤ cur := by omega
      have hv : (((wrap T cur).val : ℕ) : ℤ) = cur := wrap_coe_int h0 h2
      have hpb := hdec (wrap T cur)
      rw [backupAux, if_neg hc, backupWalk, if_neg hc, carriedVals, applyUpd]
      exact ih (parents (wrap T cur)) _ _ _ hpb.1 (by omega) (by omega)

/-- C5: the backup loop is exactly the claimed walk.  Under the strict
parent-decrease invariant and enough fuel: (i) the loop performs, for each
visited node in leaf-to-root order, the statistics update `n += 1`,
`w += carried value`, where the carried value at a node is zeroed first
when that node's recorded transition is terminal and then has the node's
recorded reward added; (ii) no node is visited twice (the walk indices
strictly decrease); (iii) the walk stops exactly at the node whose parent
link is the root sentinel `-1`. -/
theorem c5_backup_walk_spec {T S : ℕ} [NeZero T] (parents : Fin T → ℤ)
    (terminal : Fin T → Bool) (rewards : Fin T → Fin S → ℚ)
    (fuel : ℕ) (leaf : ℤ) (v : Fin S → ℚ) (n : Fin T → ℕ) (w : Fin T → Fin S → ℚ)
    (hdec : ∀ j, -1 ≤ parents j ∧ parents j < (j.val : ℤ))
    (h1 : -1 ≤ leaf) (h2 : leaf < (T : ℤ)) (h3 : leaf < (fuel : ℤ)) :
    backupAux parents terminal rewards fuel leaf v n w =
      some (applyUpd (carriedVals terminal rewards v (backupWalk parents fuel leaf)) n w) ∧
    (backupWalk parents fuel leaf).Pairwise
      (fun x y => ((y.val : ℕ) : ℤ) < ((x.val : ℕ) : ℤ)) ∧
    (∀ c, (backupWalk parents fuel leaf).getLast? = some c → parents c = -1) :=
  ⟨backupAux_spec parents terminal rewards hdec fuel leaf v n w h1 h2 h3,
    backupWalk_pairwise parents hdec fuel leaf h1 h2,
    backupWalk_last parents hdec fuel leaf h1 h2 h3⟩

/-- Witness for `c5_backup_walk_spec`: a three-node tree with the leaf at
node 1, whose parent is the root. -/
theorem c5_backup_walk_spec_witness :
    backupAux exPar exTerm exRew 4 1 (fun _ => 0) (fun _ => 0) (fun _ _ => 0) =
      some (applyUpd (carriedVals exTerm exRew (fun _ => 0) (backupWalk exPar 4 1))
        (fun _ => 0) (fun _ _ => 0)) ∧
    (backupWalk exPar 4 1).Pairwise
      (fun x y => ((y.val : ℕ) : ℤ) < ((x.val : ℕ) : ℤ)) ∧
    (∀ c, (backupWalk exPar 4 1).getLast? = some c → exPar c = -1) :=
  c5_backup_walk_spec exPar exTerm exRew 4 1 (fun _ => 0) (fun _ => 0) (fun _ _ => 0)
    (by decide) (by decide) (by decide) (by decide)

/- ------------------------------------------------------------------
Lemmas about the descent loop.
------------------------------------------------------------------ -/

theorem wrap_zero_val {n : ℕ} [NeZero n] : (((wrap n 0).val : ℕ) : ℤ) = 0 :=
  wrap_coe_int (le_refl 0) (by exact_mod_cast Nat.pos_of_ne_zero (NeZero.ne n))

/-- The sentinel `-1` wraps to the last node, which is unallocated while
the counter is below capacity, so the walk is inactive there. -/
theorem dActive_neg_one {T A S : ℕ} [NeZero T] {W : Type} (s : MctsState T A S W)
    (halloc : ∀ j, (s.logpi j).isSome → j.val < s.sim) (hsim : s.sim < T) :
    dActive s (-1) = false := by
  unfold dActive
  cases hl : (s.logpi (wrap T (-1))).isSome with
  | false => simp [hl]
  | true =>
    exfalso
    have h1 : (wrap T (-1)).val < s.sim := halloc _ hl
    have h2 : (((wrap T (-1)).val : ℕ) : ℤ) = (T : ℤ) - 1 := wrap_neg_one
    omega

theorem descendAux_spec {T A S : ℕ} [NeZero T] [NeZero A] {W : Type}
    (s : MctsState T A S W) (choose : Fin T → Fin A)
    (halloc : ∀ j, (s.logpi j).isSome → j.val < s.sim)
    (hchild : ∀ j a, s.children j a = -1 ∨
      ((j.val : ℤ) < s.children j a ∧ s.children j a < (s.sim : ℤ)))
    (hsim : s.sim < T) :
    ∀ (fuel : ℕ) (cur par act : ℤ),
      (cur = -1 ∨ (0 ≤ cur ∧ cur < (s.sim : ℤ))) →
      (0 ≤ par ∧ par < (s.sim : ℤ) ∧ act = ((choose (wrap T par)).val : ℤ)) →
      (cur = -1 ∨ (s.sim : ℤ) - cur ≤ (fuel : ℤ)) →
      ∃ p a, descendAux s choose fuel cur par act = some (p, a) ∧
        0 ≤ p ∧ p < (s.sim : ℤ) ∧ a = ((choose (wrap T p)).val : ℤ) := by
  intro fuel
  induction fuel with
  | zero =>
    intro cur par act hcur hpar hfuel
    have hc : cur = -1 := by
      rcases hfuel with h | h
      · exact h
      · rcases hcur with h1 | h1
        · exact h1
        · omega
    subst hc
    rw [descendAux, if_neg (by simp [dActive_neg_one s halloc hsim])]
    exact ⟨par, act, rfl, hpar.1, hpar.2.1, hpar.2.2⟩
  | succ fuel ih =>
    intro cur par act hcur hpar hfuel
    by_cases hc : cur = -1
    · subst hc
      rw [descendAux, if_neg (by simp [dActive_neg_one s halloc hsim])]
      exact ⟨par, act, rfl, hpar.1, hpar.2.1, hpar.2.2⟩
    · rcases hcur with h1 | h1
      · exact absurd h1 hc
      · cases hact : dActive s cur with
        | false =>
          rw [descendAux, if_neg (by simp [hact])]
          exact ⟨par, act, rfl, hpar.1, hpar.2.1, hpar.2.2⟩
        | true =>
          rw [descendAux, if_pos (by simp [hact])]
          have hv : (((wrap T cur).val : ℕ) : ℤ) = cur := wrap_coe_int h1.1 (by omega)
          rcases hchild (wrap T cur) (choose (wrap T cur)) with hch | hch
          · exact ih _ cur _ (Or.inl hch)
              ⟨h1.1, h1.2, rfl⟩ (Or.inl hch)
          · refine ih _ cur _ (Or.inr ⟨by omega, by omega⟩)
              ⟨h1.1, h1.2, rfl⟩ (Or.inr ?_)
            rcases hfuel with h | h
            · exact absurd h hc
            · omega

theorem descendPA_spec {T A S : ℕ} [NeZero T] [NeZero A] {W : Type}
    {step : W → Fin A → W × ((Fin S → ℚ) × Bool)}
    {s : MctsState T A S W} (hInv : Inv step s) (hsim : s.sim < T)
    (choose : Fin T → Fin A) :
    ∃ p a, descendPA s choose = some (p, a) ∧
      0 ≤ p ∧ p < (s.sim : ℤ) ∧ a = ((choose (wrap T p)).val : ℤ) := by
  have hroot : dActive s 0 = true := by
    unfold dActive
    rw [hInv.root_nonterm]
    simp [hInv.root_alloc]
  unfold descendPA
  rw [descendAux, if_pos (by simp [hroot])]
  rcases hInv.child_spec (wrap T 0) (choose (wrap T 0)) with hch | hch
  · exact descendAux_spec s choose hInv.alloc_lt hInv.child_spec hsim T _ 0 _
      (Or.inl hch) ⟨le_refl 0, by exact_mod_cast hInv.sim_pos, rfl⟩
      (Or.inl hch)
  · rw [wrap_zero_val] at hch
    refine descendAux_spec s choose hInv.alloc_lt hInv.child_spec hsim T _ 0 _
      (Or.inr ⟨by omega, by omega⟩)
      ⟨le_refl 0, by exact_mod_cast hInv.sim_pos, rfl⟩
      (Or.inr (by omega))

/- ------------------------------------------------------------------
The one-simulation step, structurally.
------------------------------------------------------------------ -/

section SimStep

variable {T A S : ℕ} [NeZero T] [NeZero A] {W : Type}
variable {step : W → Fin A → W × ((Fin S → ℚ) × Bool)}
variable {s : MctsState T A S W} {choose : Fin T → Fin A} {p a : ℤ}

theorem simLeaf_facts (hInv : Inv step s) (hsim : s.sim < T)
    (hp0 : 0 ≤ p) (hp1 : p < (s.sim : ℤ)) (a : ℤ) :
    0 ≤ simLeaf s p a ∧ simLeaf s p a ≤ (s.sim : ℤ) ∧ p < simLeaf s p a ∧
      simLeaf s p a < (T : ℤ) := by
  have hpv : (((wrap T p).val : ℕ) : ℤ) = p := wrap_coe_int hp0 (by omega)
  unfold simLeaf
  by_cases hslot : s.children (wrap T p) (wrap A a) = -1
  · rw [if_pos hslot]
    refine ⟨by omega, by omega, by omega, by omega⟩
  · rw [if_neg hslot]
    rcases hInv.child_spec (wrap T p) (wrap A a) with h | h
    · exact absurd h hslot
    · refine ⟨by omega, by omega, by omega, ?_⟩
      have := hInv.sim_le
      omega

theorem simLeaf_val (hInv : Inv step s) (hsim : s.sim < T)
    (hp0 : 0 ≤ p) (hp1 : p < (s.sim : ℤ)) (a : ℤ) :
    (((wrap T (simLeaf s p a)).val : ℕ) : ℤ) = simLeaf s p a := by
  obtain ⟨h1, _, _, h4⟩ := simLeaf_facts hInv hsim hp0 hp1 a
  exact wrap_coe_int h1 h4

theorem expand_parents_dec (ev : W → (Fin A → ℚ) × (Fin S → ℚ))
    (hInv : Inv step s) (hsim : s.sim < T)
    (hp0 : 0 ≤ p) (hp1 : p < (s.sim : ℤ)) :
    ∀ j, -1 ≤ (expandState step ev s p a).parents j ∧
      (expandState step ev s p a).parents j < ((j.val : ℕ) : ℤ) := by
  intro j
  show -1 ≤ Function.update s.parents (wrap T (simLeaf s p a)) p j ∧
    Function.update s.parents (wrap T (simLeaf s p a)) p j < ((j.val : ℕ) : ℤ)
  by_cases hj : j = wrap T (simLeaf s p a)
  · subst hj
    rw [Function.update_same]
    have hlv := simLeaf_val hInv hsim hp0 hp1 a
    obtain ⟨_, _, h3, _⟩ := simLeaf_facts hInv hsim hp0 hp1 a
    constructor
    · omega
    · omega
  · rw [Function.update_noteq hj]
    exact ⟨hInv.par_lb j, hInv.par_lt j⟩

theorem simulate_next (ev : W → (Fin A → ℚ) × (Fin S → ℚ))
    (hInv : Inv step s) (hsim : s.sim < T)
    (hd : descendPA s choose = some (p, a)) :
    0 ≤ p ∧ p < (s.sim : ℤ) ∧
    ∃ nw, backupAux (expandState step ev s p a).parents
        (expandState step ev s p a).terminal (expandState step ev s p a).rewards
        (T + 1) (simLeaf s p a)
        ((ev (step (s.worlds (wrap T p)) (wrap A a)).1).2) s.n s.w = some nw ∧
      simulate step ev s choose =
        .ok { expandState step ev s p a with n := nw.1, w := nw.2, sim := s.sim + 1 } := by
  obtain ⟨p1, a1, hd1, hp0, hp1, _⟩ := descendPA_spec hInv hsim choose
  rw [hd] at hd1
  obtain ⟨hpe, hae⟩ := Prod.mk.injEq .. ▸ Option.some.inj hd1
  subst hpe
  subst hae
  obtain ⟨hl0, hl1, hl2, hl3⟩ := simLeaf_facts hInv hsim hp0 hp1 a
  have hback := backupAux_spec (expandState step ev s p a).parents
    (expandState step ev s p a).terminal (expandState step ev s p a).rewards
    (expand_parents_dec ev hInv hsim hp0 hp1) (T + 1) (simLeaf s p a)
    ((ev (step (s.worlds (wrap T p)) (wrap A a)).1).2) s.n s.w
    (by omega) hl3 (by push_cast; omega)
  refine ⟨hp0, hp1, _, hback, ?_⟩
  unfold simulate
  rw [if_neg (by omega), hd]
  simp [hback]

end SimStep

/-- Unfolded form of the state after `__init__` + `initialize`. -/
theorem initRoot_logpi {T A S : ℕ} [NeZero T] {W : Type}
    (ev : W → (Fin A → ℚ) × (Fin S → ℚ)) (w0 : W) :
    (initRoot (T := T) ev (initState w0)).logpi =
      Function.update (fun _ => none) (wrap T 0) (some (ev w0).1) := by
  simp [initRoot, initState]

/-- The invariant holds after `__init__` + `initialize`. -/
theorem inv_init {T A S : ℕ} [NeZero T] [NeZero A] {W : Type}
    (step : W → Fin A → W × ((Fin S → ℚ) × Bool))
    (ev : W → (Fin A → ℚ) × (Fin S → ℚ)) (w0 : W) :
    Inv (T := T) (A := A) (S := S) step (initRoot ev (initState w0)) := by
  have hT : 0 < T := Nat.pos_of_ne_zero (NeZero.ne T)
  refine ⟨le_refl 1, hT, ?_, ?_, ?_, ?_, ?_, ?_, ?_⟩
  · intro j hj
    rw [initRoot_logpi] at hj
    show j.val < 1
    by_cases h : j = wrap T 0
    · subst h
      have := wrap_zero_val (n := T)
      omega
    · rw [Function.update_noteq h] at hj
      cases hj
  · rw [initRoot_logpi, Function.update_same]
    rfl
  · rfl
  · intro j; show -1 ≤ (-1 : ℤ); exact le_refl _
  · intro j; show (-1 : ℤ) < ((j.val : ℕ) : ℤ); omega
  · intro j a; exact Or.inl rfl
  · intro j a h; exact absurd rfl h

section SimPreserve

variable {T A S : ℕ} [NeZero T] [NeZero A] {W : Type}
variable {step : W → Fin A → W × ((Fin S → ℚ) × Bool)}
variable {s : MctsState T A S W} {choose : Fin T → Fin A} {p a : ℤ}

/-- On a terminal revisit (the child slot is occupied), every tree-side
write of the expansion stores the value already there: the re-stepped
world, transition and child link coincide with the stored ones. -/
theorem expand_reuse_eq (ev : W → (Fin A → ℚ) × (Fin S → ℚ)) (hInv : Inv step s)
    (hslot : s.children (wrap T p) (wrap A a) ≠ -1) :
    (expandState step ev s p a).worlds = s.worlds ∧
    (expandState step ev s p a).rewards = s.rewards ∧
    (expandState step ev s p a).terminal = s.terminal ∧
    (expandState step ev s p a).children = s.children := by
  have hsnap := hInv.snap (wrap T p) (wrap A a) hslot
  have hleaf : simLeaf s p a = s.children (wrap T p) (wrap A a) := if_neg hslot
  refine ⟨?_, ?_, ?_, ?_⟩
  · show Function.update s.worlds (wrap T (simLeaf s p a))
      (step (s.worlds (wrap T p)) (wrap A a)).1 = s.worlds
    rw [hleaf, ← hsnap.1]
    exact Function.update_eq_self _ _
  · show Function.update s.rewards (wrap T (simLeaf s p a))
      (step (s.worlds (wrap T p)) (wrap A a)).2.1 = s.rewards
    rw [hleaf, ← hsnap.2.1]
    exact Function.update_eq_self _ _
  · show Function.update s.terminal (wrap T (simLeaf s p a))
      (step (s.worlds (wrap T p)) (wrap A a)).2.2 = s.terminal
    rw [hleaf, ← hsnap.2.2]
    exact Function.update_eq_self _ _
  · show Function.update s.children (wrap T p)
      (Function.update (s.children (wrap T p)) (wrap A a) (simLeaf s p a)) = s.children
    rw [hleaf, Function.update_eq_self, Function.update_eq_self]

/-- The invariant is preserved by one (possibly failing) `simulate`. -/
theorem inv_step (ev : W → (Fin A → ℚ) × (Fin S → ℚ))
    (hInv : Inv step s) (choose : Fin T → Fin A) :
    Inv step (simulateD step ev s choose) := by
  by_cases hbud : T ≤ s.sim
  · have hs1 : simulate step ev s choose = .error .budget := by
      unfold simulate; rw [if_pos hbud]
    have hs2 : simulateD step ev s choose = s := by
      unfold simulateD; rw [hs1]
    rw [hs2]; exact hInv
  · have hsim : s.sim < T := by omega
    obtain ⟨p, a, hd, hp0, hp1, _⟩ := descendPA_spec hInv hsim choose
    obtain ⟨_, _, nw, hback, hok⟩ := simulate_next ev hInv hsim hd
    have hsd : simulateD step ev s choose =
        { expandState step ev s p a with n := nw.1, w := nw.2, sim := s.sim + 1 } := by
      unfold simulateD; rw [hok]
    rw [hsd]
    have hpv : (((wrap T p).val : ℕ) : ℤ) = p :=
      wrap_coe_int hp0 (by have := hInv.sim_le; omega)
    obtain ⟨hl0, hl1, hl2, hl3⟩ := simLeaf_facts hInv hsim hp0 hp1 a
    have hlv : (((wrap T (simLeaf s p a)).val : ℕ) : ℤ) = simLeaf s p a :=
      simLeaf_val hInv hsim hp0 hp1 a
    have hlfpf : wrap T (simLeaf s p a) ≠ wrap T p :=
      Fin.ne_of_val_ne (by omega)
    have hlf0 : wrap T (simLeaf s p a) ≠ wrap T 0 := by
      have h0 := wrap_zero_val (n := T)
      exact Fin.ne_of_val_ne (by omega)
    refine ⟨?_, ?_, ?_, ?_, ?_, ?_, ?_, ?_, ?_⟩
    · show 1 ≤ s.sim + 1
      omega
    · show s.sim + 1 ≤ T
      omega
    · intro j hj
      show j.val < s.sim + 1
      have hj1 : (Function.update s.logpi (wrap T (simLeaf s p a))
          (some (ev (step (s.worlds (wrap T p)) (wrap A a)).1).1) j).isSome = true := hj
      by_cases h : j = wrap T (simLeaf s p a)
      · subst h; omega
      · rw [Function.update_noteq h] at hj1
        have := hInv.alloc_lt j hj1
        omega
    · show (Function.update s.logpi (wrap T (simLeaf s p a)) _ (wrap T 0)).isSome = true
      rw [Function.update_noteq (Ne.symm hlf0)]
      exact hInv.root_alloc
    · show Function.update s.terminal (wrap T (simLeaf s p a)) _ (wrap T 0) = false
      rw [Function.update_noteq (Ne.symm hlf0)]
      exact hInv.root_nonterm
    · intro j
      exact (expand_parents_dec ev hInv hsim hp0 hp1 j).1
    · intro j
      exact (expand_parents_dec ev hInv hsim hp0 hp1 j).2
    · intro j a1
      simp only [expandState]
      by_cases hj : j = wrap T p
      · subst hj
        rw [Function.update_same]
        by_cases ha1 : a1 = wrap A a
        · subst ha1
          rw [Function.update_same]
          refine Or.inr ⟨by omega, by push_cast; omega⟩
        · rw [Function.update_noteq ha1]
          rcases hInv.child_spec (wrap T p) a1 with h | h
          · exact Or.inl h
          · exact Or.inr ⟨h.1, by push_cast; omega⟩
      · rw [Function.update_noteq hj]
        rcases hInv.child_spec j a1 with h | h
        · exact Or.inl h
        · exact Or.inr ⟨h.1, by push_cast; omega⟩
    · by_cases hslot : s.children (wrap T p) (wrap A a) = -1
      · -- fresh leaf at index `s.sim`
        have hleaf : simLeaf s p a = (s.sim : ℤ) := if_pos hslot
        intro j a1 hne
        simp only [expandState] at hne ⊢
        by_cases hj : j = wrap T p
        · subst hj
          by_cases ha1 : a1 = wrap A a
          · subst ha1
            rw [Function.update_same, Function.update_same, Function.update_same,
              Function.update_same, Function.update_same,
              Function.update_noteq (Ne.symm hlfpf)]
            exact ⟨rfl, rfl, rfl⟩
          · rw [Function.update_same, Function.update_noteq ha1] at hne
            have hold := hInv.snap (wrap T p) a1 hne
            rcases hInv.child_spec (wrap T p) a1 with h | h
            · exact absurd h hne
            · have hdv : (((wrap T (s.children (wrap T p) a1)).val : ℕ) : ℤ) =
                  s.children (wrap T p) a1 :=
                wrap_coe_int (by omega) (by have := hInv.sim_le; omega)
              have hdlf : wrap T (s.children (wrap T p) a1) ≠ wrap T (simLeaf s p a) :=
                Fin.ne_of_val_ne (by omega)
              rw [Function.update_same, Function.update_noteq ha1,
                Function.update_noteq hdlf, Function.update_noteq hdlf,
                Function.update_noteq hdlf, Function.update_noteq (Ne.symm hlfpf)]
              exact hold
        · rw [Function.update_noteq hj] at hne
          have hold := hInv.snap j a1 hne
          rcases hInv.child_spec j a1 with h | h
          · exact absurd h hne
          · have hjlf : j ≠ wrap T (simLeaf s p a) := by
              intro hjeq
              have hjv : ((j.val : ℕ) : ℤ) = simLeaf s p a := by rw [hjeq]; exact hlv
              omega
            have hdv : (((wrap T (s.children j a1)).val : ℕ) : ℤ) = s.children j a1 :=
              wrap_coe_int (by omega) (by have := hInv.sim_le; omega)
            have hdlf : wrap T (s.children j a1) ≠ wrap T (simLeaf s p a) :=
              Fin.ne_of_val_ne (by omega)
            rw [Function.update_noteq hj, Function.update_noteq hdlf,
              Function.update_noteq hdlf, Function.update_noteq hdlf,
              Function.update_noteq hjlf]
            exact hold
      · -- terminal revisit: every write re-stores the existing value
        obtain ⟨hweq, hreq, hteq, hceq⟩ := expand_reuse_eq ev hInv hslot
        simp only [expandState] at hweq hreq hteq hceq
        intro j a1 hne
        simp only [expandState] at hne ⊢
        rw [hceq] at hne
        rw [hweq, hreq, hteq, hceq]
        exact hInv.snap j a1 hne

/-- C9's engine: one `simulate` never changes the stored world state or
transition of any already-allocated node. -/
theorem preserve_snapshots (ev : W → (Fin A → ℚ) × (Fin S → ℚ))
    (hInv : Inv step s) (choose : Fin T → Fin A)
    (j : Fin T) (hj : (s.logpi j).isSome = true) :
    (simulateD step ev s choose).worlds j = s.worlds j ∧
    (simulateD step ev s choose).rewards j = s.rewards j ∧
    (simulateD step ev s choose).terminal j = s.terminal j := by
  by_cases hbud : T ≤ s.sim
  · have hs1 : simulate step ev s choose = .error .budget := by
      unfold simulate; rw [if_pos hbud]
    have hs2 : simulateD step ev s choose = s := by
      unfold simulateD; rw [hs1]
    rw [hs2]
    exact ⟨rfl, rfl, rfl⟩
  · have hsim : s.sim < T := by omega
    obtain ⟨p, a, hd, hp0, hp1, _⟩ := descendPA_spec hInv hsim choose
    obtain ⟨_, _, nw, hback, hok⟩ := simulate_next ev hInv hsim hd
    have hsd : simulateD step ev s choose =
        { expandState step ev s p a with n := nw.1, w := nw.2, sim := s.sim + 1 } := by
      unfold simulateD; rw [hok]
    rw [hsd]
    by_cases hslot : s.children (wrap T p) (wrap A a) = -1
    · have hleaf : simLeaf s p a = (s.sim : ℤ) := if_pos hslot
      have hlv : (((wrap T (simLeaf s p a)).val : ℕ) : ℤ) = simLeaf s p a :=
        simLeaf_val hInv hsim hp0 hp1 a
      have halloc := hInv.alloc_lt j hj
      have hjlf : j ≠ wrap T (simLeaf s p a) := by
        intro hjeq
        have : ((j.val : ℕ) : ℤ) = simLeaf s p a := by rw [hjeq]; exact hlv
        omega
      refine ⟨?_, ?_, ?_⟩
      · show Function.update s.worlds (wrap T (simLeaf s p a)) _ j = s.worlds j
        rw [Function.update_noteq hjlf]
      · show Function.update s.rewards (wrap T (simLeaf s p a)) _ j = s.rewards j
        rw [Function.update_noteq hjlf]
      · show Function.update s.terminal (wrap T (simLeaf s p a)) _ j = s.terminal j
        rw [Function.update_noteq hjlf]
    · obtain ⟨hweq, hreq, hteq, _⟩ := expand_reuse_eq ev hInv hslot
      exact ⟨by rw [show ({ expandState step ev s p a with
          n := nw.1, w := nw.2, sim := s.sim + 1 } : MctsState T A S W).worlds =
          (expandState step ev s p a).worlds from rfl, hweq],
        by rw [show ({ expandState step ev s p a with
          n := nw.1, w := nw.2, sim := s.sim + 1 } : MctsState T A S W).rewards =
          (expandState step ev s p a).rewards from rfl, hreq],
        by rw [show ({ expandState step ev s p a with
          n := nw.1, w := nw.2, sim := s.sim + 1 } : MctsState T A S W).terminal =
          (expandState step ev s p a).terminal from rfl, hteq]⟩

end SimPreserve

/-- Every reachable state satisfies the invariant. -/
theorem reachable_inv {T A S : ℕ} [NeZero T] [NeZero A] {W : Type}
    {step : W → Fin A → W × ((Fin S → ℚ) × Bool)}
    {ev : W → (Fin A → ℚ) × (Fin S → ℚ)}
    {s : MctsState T A S W} (hr : Reachable step ev s) : Inv step s := by
  induction hr with
  | base w0 => exact inv_init step ev w0
  | next choose _ ih => exact inv_step ev ih choose

/- ------------------------------------------------------------------
The remaining claims.
------------------------------------------------------------------ -/

/-- C7: once the simulation counter has reached `n_nodes`, every further
`simulate` call fails with the budget error — raised before any mutation,
so the tree, statistics and counter are untouched — and never silently
no-ops (an error is returned, not a state). -/
theorem c7_budget_error {T A S : ℕ} [NeZero T] [NeZero A] {W : Type}
    (step : W → Fin A → W × ((Fin S → ℚ) × Bool))
    (ev : W → (Fin A → ℚ) × (Fin S → ℚ))
    (s : MctsState T A S W) (choose : Fin T → Fin A) (h : T ≤ s.sim) :
    simulate step ev s choose = .error .budget ∧ simulateD step ev s choose = s := by
  have h1 : simulate step ev s choose = .error .budget := by
    unfold simulate
    rw [if_pos h]
  refine ⟨h1, ?_⟩
  unfold simulateD
  rw [h1]

/-- Witness for `c7_budget_error`: a tree whose counter 5 exceeds its
capacity 3. -/
theorem c7_budget_error_witness :
    3 ≤ exFull.sim ∧
    simulate exStep exEv exFull exChoose = .error .budget ∧
    simulateD exStep exEv exFull exChoose = exFull :=
  ⟨by decide, (c7_budget_error exStep exEv exFull exChoose (by decide)).1,
    (c7_budget_error exStep exEv exFull exChoose (by decide)).2⟩

/-- C9: once a node's world-state snapshot and transition have been
written at expansion, no later `simulate` (descent + expansion + backup)
changes them: for every reachable state and every allocated node, the
stored world, rewards and terminal flag are unchanged by a further
simulation — including when the descent revisits a terminal node, whose
slot is then rewritten with the identical re-stepped values. -/
theorem c9_snapshot_immutable {T A S : ℕ} [NeZero T] [NeZero A] {W : Type}
    (step : W → Fin A → W × ((Fin S → ℚ) × Bool))
    (ev : W → (Fin A → ℚ) × (Fin S → ℚ))
    {s : MctsState T A S W} (choose : Fin T → Fin A)
    (hr : Reachable step ev s) (j : Fin T) (hj : (s.logpi j).isSome = true) :
    (simulateD step ev s choose).worlds j = s.worlds j ∧
    (simulateD step ev s choose).rewards j = s.rewards j ∧
    (simulateD step ev s choose).terminal j = s.terminal j :=
  preserve_snapshots ev (reachable_inv hr) choose j hj

/-- Witness for `c9_snapshot_immutable`: the allocated root of `ex3S0`. -/
theorem c9_snapshot_immutable_witness :
    (ex3S0.logpi (0 : Fin 3)).isSome = true ∧
    (simulateD exStep exEv ex3S0 exChoose).worlds 0 = ex3S0.worlds 0 ∧
    (simulateD exStep exEv ex3S0 exChoose).rewards 0 = ex3S0.rewards 0 ∧
    (simulateD exStep exEv ex3S0 exChoose).terminal 0 = ex3S0.terminal 0 :=
  ⟨by decide,
    c9_snapshot_immutable exStep exEv exChoose (Reachable.base 7) 0 (by decide)⟩

/-- C10: on every reachable state with simulation budget left, every
non-sentinel child index is strictly greater than its parent's index, and
one full `simulate` — the descent loop, the expansion and the backup
loop — terminates with a result (`T + 1` fuel is never exhausted). -/
theorem c10_descent_backup_terminate {T A S : ℕ} [NeZero T] [NeZero A] {W : Type}
    (step : W → Fin A → W × ((Fin S → ℚ) × Bool))
    (ev : W → (Fin A → ℚ) × (Fin S → ℚ))
    {s : MctsState T A S W} (choose : Fin T → Fin A)
    (hr : Reachable step ev s) (hsim : s.sim < T) :
    (∀ j a1, s.children j a1 = -1 ∨ ((j.val : ℕ) : ℤ) < s.children j a1) ∧
    (simulate step ev s choose).isOk = true := by
  have hInv := reachable_inv hr
  obtain ⟨p, a, hd, hp0, hp1, _⟩ := descendPA_spec hInv hsim choose
  obtain ⟨_, _, nw, hback, hok⟩ := simulate_next ev hInv hsim hd
  constructor
  · intro j a1
    rcases hInv.child_spec j a1 with h | h
    · exact Or.inl h
    · exact Or.inr h.1
  · rw [hok]
    rfl

/-- Witness for `c10_descent_backup_terminate`: the freshly initialized
three-node tree. -/
theorem c10_descent_backup_terminate_witness :
    ex3S0.sim < 3 ∧
    (simulate exStep exEv ex3S0 exChoose).isOk = true ∧
    (ex3S0.children 0 0 = -1 ∨ (((0 : Fin 3).val : ℕ) : ℤ) < ex3S0.children 0 0) :=
  ⟨by decide,
    (c10_descent_backup_terminate exStep exEv exChoose (Reachable.base 7) (by decide)).2,
    (c10_descent_backup_terminate exStep exEv exChoose (Reachable.base 7) (by decide)).1 0 0⟩

/-- C6: when the descent halts at a `(parent, action)` pair whose child
slot is already occupied, the expansion reuses the existing child index
as the leaf — the slot at the current simulation counter stays
unallocated and the existing child is the node wired to the parent —
and a fresh slot (the current counter) is allocated exactly when the
child slot holds the sentinel `-1`. -/
theorem c6_expansion_reuse {T A S : ℕ} [NeZero T] [NeZero A] {W : Type}
    (step : W → Fin A → W × ((Fin S → ℚ) × Bool))
    (ev : W → (Fin A → ℚ) × (Fin S → ℚ))
    {s : MctsState T A S W} (choose : Fin T → Fin A) {p a : ℤ}
    (hr : Reachable step ev s) (hsim : s.sim < T)
    (hd : descendPA s choose = some (p, a)) :
    (s.children (wrap T p) (wrap A a) ≠ -1 →
      simLeaf s p a = s.children (wrap T p) (wrap A a) ∧
      (simulateD step ev s choose).logpi (wrap T (s.sim : ℤ)) = none ∧
      (simulateD step ev s choose).parents
        (wrap T (s.children (wrap T p) (wrap A a))) = p) ∧
    (s.children (wrap T p) (wrap A a) = -1 →
      simLeaf s p a = (s.sim : ℤ) ∧
      ((simulateD step ev s choose).logpi (wrap T (s.sim : ℤ))).isSome = true ∧
      (simulateD step ev s choose).parents (wrap T (s.sim : ℤ)) = p) := by
  have hInv := reachable_inv hr
  obtain ⟨hp0, hp1, nw, hback, hok⟩ := simulate_next ev hInv hsim hd
  have hsd : simulateD step ev s choose =
      { expandState step ev s p a with n := nw.1, w := nw.2, sim := s.sim + 1 } := by
    unfold simulateD
    rw [hok]
  obtain ⟨hl0, hl1, hl2, hl3⟩ := simLeaf_facts hInv hsim hp0 hp1 a
  have hlv : (((wrap T (simLeaf s p a)).val : ℕ) : ℤ) = simLeaf s p a :=
    simLeaf_val hInv hsim hp0 hp1 a
  have hsimv : (((wrap T (s.sim : ℤ)).val : ℕ) : ℤ) = (s.sim : ℤ) :=
    wrap_coe_int (by omega) (by omega)
  have hnone : s.logpi (wrap T (s.sim : ℤ)) = none := by
    cases hcase : s.logpi (wrap T (s.sim : ℤ)) with
    | none => rfl
    | some x =>
      exfalso
      have := hInv.alloc_lt _ (by rw [hcase]; rfl)
      omega
  constructor
  · intro hslot
    have hleaf : simLeaf s p a = s.children (wrap T p) (wrap A a) := if_neg hslot
    have hlts : simLeaf s p a < (s.sim : ℤ) := by
      rcases hInv.child_spec (wrap T p) (wrap A a) with h | h
      · exact absurd h hslot
      · omega
    refine ⟨hleaf, ?_, ?_⟩
    · rw [hsd]
      show Function.update s.logpi (wrap T (simLeaf s p a)) _ (wrap T (s.sim : ℤ)) = none
      have hne : wrap T (s.sim : ℤ) ≠ wrap T (simLeaf s p a) :=
        Fin.ne_of_val_ne (by omega)
      rw [Function.update_noteq hne]
      exact hnone
    · rw [hsd]
      show Function.update s.parents (wrap T (simLeaf s p a)) p
        (wrap T (s.children (wrap T p) (wrap A a))) = p
      rw [← hleaf, Function.update_same]
  · intro hslot
    have hleaf : simLeaf s p a = (s.sim : ℤ) := if_pos hslot
    refine ⟨hleaf, ?_, ?_⟩
    · rw [hsd]
      show (Function.update s.logpi (wrap T (simLeaf s p a)) (some _)
        (wrap T (s.sim : ℤ))).isSome = true
      rw [← hleaf, Function.update_same]
      rfl
    · rw [hsd]
      show Function.update s.parents (wrap T (simLeaf s p a)) p (wrap T (s.sim : ℤ)) = p
      rw [← hleaf, Function.update_same]

/-- Witness for `c6_expansion_reuse`: on the freshly initialized tree the
root's child slot is empty, so the fresh slot (the counter, node 1) is
allocated. -/
theorem c6_expansion_reuse_witness :
    ex3S0.children (wrap 3 0) (wrap 1 0) = -1 ∧
    simLeaf ex3S0 0 0 = (ex3S0.sim : ℤ) ∧
    ((simulateD exStep exEv ex3S0 exChoose).logpi (wrap 3 (ex3S0.sim : ℤ))).isSome = true ∧
    (simulateD exStep exEv ex3S0 exChoose).parents (wrap 3 (ex3S0.sim : ℤ)) = 0 := by
  have hd : descendPA ex3S0 exChoose = some (0, 0) := by decide
  have h := c6_expansion_reuse exStep exEv exChoose (Reachable.base 7) (by decide) hd
  exact ⟨by decide, (h.2 (by decide)).1, (h.2 (by decide)).2.1, (h.2 (by decide)).2.2⟩

end BL
